import Mathlib

/-!
Verification of the STM receipt pipeline
(`cluster.py`, `store_6352_parseToCSV.py`, `cleanup.py`).

Strings are modelled as `List Char`.  The Python regular-expression
searches used by the source are translated into direct character
scanners with the same semantics (leftmost match, greedy/lazy
quantifiers, the `$` anchor accepting a single trailing newline).
`\d` and `\s` are modelled over their ASCII ranges.
-/

/-- ASCII decimal digit, the model of the regex class `\d`. -/
def isDig (c : Char) : Bool := c.isDigit

/-- Every character of the list is a digit. -/
def allDig (s : List Char) : Bool := s.all isDig

/-- ASCII whitespace, the model of the regex class `\s`. -/
def isWs (c : Char) : Bool :=
  c = ' ' || c = '\t' || c = '\n' || c = '\r' || c = '\x0b' || c = '\x0c'

/-- Digit or dot, the model of the regex class `[\d.]`. -/
def isDigDot (c : Char) : Bool := isDig c || c = '.'

/-- Match exactly `k` digits at the head of the input
(the anchored part of `\d{k}`). -/
def takeDigits : Nat → List Char → Option (List Char)
  | 0, _ => some []
  | _ + 1, [] => none
  | k + 1, c :: cs =>
      if isDig c then (takeDigits k cs).map (fun r => c :: r) else none

/-- Model of `re.search(r'(\d{k})', s)`: first position with `k`
consecutive digits, returning the matched digits. -/
def searchKDigits (k : Nat) : List Char → Option (List Char)
  | [] => takeDigits k []
  | c :: cs =>
      match takeDigits k (c :: cs) with
      | some r => some r
      | none => searchKDigits k cs

/-- Matcher for the reversed text against the reversed pattern
`\d{4}\.stm` anchored at the end: the reversed text must start with
`m t s .` followed by four digits.  Returns the digit group in
source order. -/
def stmRev : List Char → Option (List Char)
  | r1 :: r2 :: r3 :: r4 :: a :: b :: c :: d :: _ =>
      if r1 = 'm' ∧ r2 = 't' ∧ r3 = 's' ∧ r4 = '.' ∧
         isDig a = true ∧ isDig b = true ∧ isDig c = true ∧ isDig d = true then
        some [d, c, b, a]
      else none
  | _ => none

/-- The text a `$`-anchored Python match may end at: the input with one
trailing newline removed, if present. -/
def stripDollarNl (f : List Char) : List Char :=
  match f.getLast? with
  | some c => if c = '\n' then f.dropLast else f
  | none => f

/-- Model of `re.search(r'(\d{4})\.stm$', filename)` from
`extract_cafe_id_and_date` (cluster.py). -/
def searchCafeStm (f : List Char) : Option (List Char) :=
  stmRev (stripDollarNl f).reverse

/-- The cafe-id branch of `extract_cafe_id_and_date`: the anchored
search first, then any 4-digit group anywhere. -/
def cafeSearch (f : List Char) : Option (List Char) :=
  match searchCafeStm f with
  | some cid => some cid
  | none => searchKDigits 4 f

/-- Model of Python `str.split(sep)` for a one-character separator:
always returns at least one (possibly empty) segment. -/
def pySplit (sep : Char) : List Char → List (List Char)
  | [] => [[]]
  | c :: cs =>
      match pySplit sep cs with
      | [] => [[c]]
      | h :: t => if c = sep then [] :: h :: t else (c :: h) :: t

/-- Model of `re.match(r'^\d{8}$', s)`: eight digits, optionally
followed by a single trailing newline (Python `$` semantics). -/
def pyFullMatchDigits8 (s : List Char) : Bool :=
  (decide (s.length = 8) && allDig s) ||
    (decide (s.length = 9) && allDig s.dropLast && decide (s.getLast? = some '\n'))

/-- The date branch of `extract_cafe_id_and_date`: the 8-digit search,
falling back to splitting on `_`, taking the first segment, splitting
that on `-`, and taking the part at index 2 when more than 2 parts
exist (Python `split` always returns at least one segment, so the
`len(parts) > 0` guard is kept verbatim). -/
def dateSearch (filename : List Char) : Option (List Char) :=
  match searchKDigits 8 filename with
  | some d => some d
  | none =>
      if 0 < (pySplit '_' filename).length then
        if 2 < (pySplit '-' ((pySplit '_' filename).headD [])).length then
          some ((pySplit '-' ((pySplit '_' filename).headD [])).getD 2 [])
        else none
      else none

/-- Model of `extract_cafe_id_and_date` (cluster.py, lines 28-77):
cafe id via the two-step 4-digit search, date via the 8-digit search
with the split-based structural fallback, then the 8-digit validation
applied to either date candidate. -/
def extract_cafe_id_and_date (filename : List Char) : Option (List Char × List Char) :=
  match cafeSearch filename with
  | none => none
  | some cafe_id =>
      match dateSearch filename with
      | none => none
      | some date =>
          if pyFullMatchDigits8 date then some (cafe_id, date) else none

/-- Case-insensitive literal matching (Python `re.IGNORECASE` over
ASCII): strip the literal from the head of the input, returning the
remainder. -/
def ciStrip : List Char → List Char → Option (List Char)
  | [], s => some s
  | _ :: _, [] => none
  | l :: ls, c :: cs => if l.toLower = c.toLower then ciStrip ls cs else none

/-- Anchored match of `Order No:\s*(\d+)` (IGNORECASE): the greedy
`\s*` cannot backtrack into `\d+`, so it is the maximal whitespace run
followed by a nonempty maximal digit run. -/
def matchOrderNoAt (s : List Char) : Option (List Char) :=
  match ciStrip ("order no:").data s with
  | none => none
  | some r1 =>
      let r2 := r1.dropWhile isWs
      let ds := r2.takeWhile isDig
      if ds = [] then none else some ds

/-- Model of `ORDER_NO_PATTERN.search`: leftmost anchored match. -/
def searchOrderNo : List Char → Option (List Char)
  | [] => none
  | c :: cs =>
      match matchOrderNoAt (c :: cs) with
      | some r => some r
      | none => searchOrderNo cs

/-- Anchored match of `(\d{2}:\d{2}:\d{2})`. -/
def matchTimeAt : List Char → Option (List Char)
  | a :: b :: c1 :: c :: d :: c2 :: e :: f :: _ =>
      if c1 = ':' ∧ c2 = ':' ∧ isDig a = true ∧ isDig b = true ∧
         isDig c = true ∧ isDig d = true ∧ isDig e = true ∧ isDig f = true then
        some [a, b, ':', c, d, ':', e, f]
      else none
  | _ => none

/-- Model of `TIME_PATTERN.search`: leftmost anchored match. -/
def searchTime : List Char → Option (List Char)
  | [] => none
  | c :: cs =>
      match matchTimeAt (c :: cs) with
      | some r => some r
      | none => searchTime cs

/-- Anchored match of `Total amount:\s*([\d.]+)\s*EUR` (IGNORECASE).
Neither greedy run can backtrack usefully (`\s`, `[\d.]` and `E`/`e`
are pairwise disjoint), so each is maximal. -/
def matchTotalAt (s : List Char) : Option (List Char) :=
  match ciStrip ("total amount:").data s with
  | none => none
  | some r1 =>
      let r2 := r1.dropWhile isWs
      let num := r2.takeWhile isDigDot
      if num = [] then none
      else
        let r3 := (r2.dropWhile isDigDot).dropWhile isWs
        match ciStrip ("eur").data r3 with
        | none => none
        | some _ => some num

/-- Model of `TOTAL_AMOUNT_PATTERN.search`: leftmost anchored match. -/
def searchTotal : List Char → Option (List Char)
  | [] => none
  | c :: cs =>
      match matchTotalAt (c :: cs) with
      | some r => some r
      | none => searchTotal cs

/-- The tail of the item regex after the lazy group:
`\s*//\s*([\d.]+)\s*EUR\s*//\s*VAT:\s*([\d.]+%)` (IGNORECASE).
Returns the price group, the VAT group (with its `%`), and the
remainder after the whole match.  As above, each greedy run is
maximal because the neighbouring character classes are disjoint. -/
def matchItemTail (s : List Char) : Option ((List Char × List Char) × List Char) :=
  match (s.dropWhile isWs) with
  | s1 :: s2 :: r1 =>
      if s1 = '/' ∧ s2 = '/' then
        let r2 := r1.dropWhile isWs
        let price := r2.takeWhile isDigDot
        if price = [] then none
        else
          let r3 := (r2.dropWhile isDigDot).dropWhile isWs
          match ciStrip ("eur").data r3 with
          | none => none
          | some r4 =>
              match (r4.dropWhile isWs) with
              | t1 :: t2 :: r5 =>
                  if t1 = '/' ∧ t2 = '/' then
                    match ciStrip ("vat:").data (r5.dropWhile isWs) with
                    | none => none
                    | some r6 =>
                        let r7 := r6.dropWhile isWs
                        let vnum := r7.takeWhile isDigDot
                        if vnum = [] then none
                        else
                          match (r7.dropWhile isDigDot) with
                          | p :: r8 =>
                              if p = '%' then some ((price, vnum ++ [p]), r8)
                              else none
                          | [] => none
                  else none
              | _ => none
      else none
  | _ => none

/-- Lazy expansion of `.+?` before the item tail: consume one more
non-newline character, then try the tail; first success wins
(shortest expansion, Python lazy semantics). -/
def dotLoop (acc : List Char) : List Char → Option (List Char × (List Char × List Char) × List Char)
  | [] => none
  | c :: cs =>
      if c = '\n' then none
      else
        match matchItemTail cs with
        | some (gs, rest) => some (acc ++ [c], gs, rest)
        | none => dotLoop (acc ++ [c]) cs

/-- Backtracking over the greedy `\s*` that precedes `.+?` in the item
regex: try the longest whitespace run first, then move trailing
whitespace characters into the `.+?` region one at a time.  `wsRev`
holds the currently-retained whitespace reversed. -/
def wsDotLoop : List Char → List Char → Option (List Char × (List Char × List Char) × List Char)
  | wsRev, rest =>
      match dotLoop [] rest with
      | some (dots, gs, after) => some (wsRev.reverse ++ dots, gs, after)
      | none =>
          match wsRev with
          | [] => none
          | c :: ws2 => wsDotLoop ws2 (c :: rest)

/-- Anchored match of the full item regex
`(\d+\s*-\s*.+?)\s*//\s*([\d.]+)\s*EUR\s*//\s*VAT:\s*([\d.]+%)`.
Returns the three groups and the remainder after the match. -/
def matchItemAt (s : List Char) : Option ((List Char × List Char × List Char) × List Char) :=
  let digs := s.takeWhile isDig
  if digs = [] then none
  else
    let r1 := s.dropWhile isDig
    let ws1 := r1.takeWhile isWs
    match r1.dropWhile isWs with
    | c :: r3 =>
        if c = '-' then
          let ws2 := r3.takeWhile isWs
          let r4 := r3.dropWhile isWs
          match wsDotLoop ws2.reverse r4 with
          | some (mid, (g2, g3), after) =>
              some ((digs ++ ws1 ++ c :: mid, g2, g3), after)
          | none => none
        else none
    | [] => none

/-- Model of `ITEM_PATTERN.findall`: scan left to right, non-overlapping,
resuming after each match; fuelled by the input length (every step
consumes at least one character). -/
def findItemsAux : Nat → List Char → List (List Char × List Char × List Char)
  | 0, _ => []
  | fuel + 1, s =>
      match s with
      | [] => []
      | c :: cs =>
          match matchItemAt (c :: cs) with
          | some (g, after) => g :: findItemsAux fuel after
          | none => findItemsAux fuel cs

/-- All item matches of the content. -/
def find_items (s : List Char) : List (List Char × List Char × List Char) :=
  findItemsAux s.length s

/-- The dictionary returned by `STMParser.parse_stm_content`. -/
structure StmRecord where
  order_no : Option (List Char)
  time : Option (List Char)
  total_amount : Option (List Char)
  items : List (List Char × List Char × List Char)
deriving DecidableEq

/-- Model of `STMParser.parse_stm_content` (store_6352_parseToCSV.py,
lines 41-72): the four independent regex extractions. -/
def parse_stm_content (content : List Char) : StmRecord :=
  { order_no := searchOrderNo content
    time := searchTime content
    total_amount := searchTotal content
    items := find_items content }

/-- Model of Python `x or ''` on an optional string (absent fields
become the empty string; an empty string is also falsy and maps to
itself, so this agrees with the source). -/
def pyOr (o : Option (List Char)) : List Char :=
  match o with
  | none => []
  | some s => s

/-- Model of Python `str.strip()`: remove leading and trailing
whitespace. -/
def pyStrip (s : List Char) : List Char :=
  ((s.dropWhile isWs).reverse.dropWhile isWs).reverse

/-- The row-writing loop of `STMParser.write_csv_row`: one row per
item, counting rows as they are written. -/
def write_rows (cafe_id date : List Char) (time order_no total : Option (List Char)) :
    List (List Char × List Char × List Char) → List (List (List Char)) × Nat
  | [] => ([], 0)
  | it :: rest =>
      let row := [cafe_id, date, pyOr time, pyOr order_no,
        pyStrip it.1, pyStrip it.2.1, pyStrip it.2.2, pyOr total]
      let out := write_rows cafe_id date time order_no total rest
      (row :: out.1, out.2 + 1)

/-- Model of `STMParser.write_csv_row` (store_6352_parseToCSV.py,
lines 74-111): rows written and the returned row count. -/
def write_csv_row (cafe_id date : List Char) (r : StmRecord) :
    List (List (List Char)) × Nat :=
  write_rows cafe_id date r.time r.order_no r.total_amount r.items

/-- `STMParser.CSV_HEADERS`. -/
def CSV_HEADERS : List (List Char) :=
  [("cafe_id").data, ("date").data, ("time").data, ("order_no").data,
   ("item").data, ("price").data, ("vat").data, ("total_amount").data]

/-- Model of the CSV-writing section of `process_stm_file`
(store_6352_parseToCSV.py, lines 148-162): the target table is the
row list of the local CSV file; the header is written first exactly
when the table has zero length, then the record's rows are appended.
Returns the new table, whether the header was written, and the count
returned by `write_csv_row`. -/
def process_stm_table (table : List (List (List Char))) (cafe_id date : List Char)
    (r : StmRecord) : List (List (List Char)) × Bool × Nat :=
  let withHeader : List (List (List Char)) × Bool :=
    if table.length = 0 then (table ++ [CSV_HEADERS], true) else (table, false)
  let out := write_csv_row cafe_id date r
  (withHeader.1 ++ out.1, withHeader.2, out.2)

/-- Kind of a filesystem entry. -/
inductive FKind
  | file
  | dir
deriving DecidableEq

/-- One filesystem entry: its path (a list of components) and kind. -/
structure FSEntry where
  path : List (List Char)
  kind : FKind
deriving DecidableEq

/-- A path exists in the filesystem (`Path.exists`). -/
def pathExists (fs : List FSEntry) (p : List (List Char)) : Bool :=
  fs.any (fun e => decide (e.path = p))

/-- A path exists and is a directory (`Path.is_dir`). -/
def isDirAt (fs : List FSEntry) (p : List (List Char)) : Bool :=
  fs.any (fun e => decide (e.path = p ∧ e.kind = FKind.dir))

/-- `p` is an ancestor-or-self of `q` componentwise. -/
def pathStarts : List (List Char) → List (List Char) → Bool
  | [], _ => true
  | _ :: _, [] => false
  | a :: as, b :: bs => if a = b then pathStarts as bs else false

/-- Model of `cleanup_temp_directory` (cleanup.py, lines 17-38) over a
flat filesystem model: a missing path succeeds with no change, an
existing non-directory fails with no change, and otherwise the
`os.walk` deletion removes the directory's subtree and the directory
itself (OS-level deletion errors are outside the model, so the walk
always completes). -/
def cleanup_temp_directory (fs : List FSEntry) (p : List (List Char)) :
    List FSEntry × Bool :=
  if pathExists fs p = false then (fs, true)
  else if isDirAt fs p = false then (fs, false)
  else (fs.filter (fun e => !(pathStarts p e.path)), true)

/-- The synthetic receipt body of claim C1: one order line, one
timestamp, one item line and one total line. -/
def c1Body : List Char :=
  ("Order No: 12345\n14:32:10\n1 - Coffee // 2.50 EUR // VAT: 9%\nTotal amount: 2.50 EUR\n").data

theorem takeDigits_append_nondigit (k : Nat) (xs ys : List Char) (c : Char)
    (h : isDig c = false) :
    takeDigits k (xs ++ c :: ys) = takeDigits k xs := by
  induction xs generalizing k with
  | nil =>
      cases k with
      | zero => rfl
      | succ k => simp [takeDigits, h]
  | cons a as ih =>
      cases k with
      | zero => rfl
      | succ k => simp [takeDigits, ih]

theorem takeDigits_prefix (t v : List Char) (h : allDig t = true) :
    takeDigits t.length (t ++ v) = some t := by
  induction t with
  | nil => rfl
  | cons a as ih =>
      simp only [allDig, List.all_cons, Bool.and_eq_true] at h
      simp [takeDigits, h.1, ih h.2]

theorem takeDigits_some (k : Nat) (s r : List Char) (h : takeDigits k s = some r) :
    r.length = k ∧ allDig r = true ∧ ∃ v, s = r ++ v := by
  induction k generalizing s r with
  | zero =>
      simp only [takeDigits, Option.some.injEq] at h
      subst h
      exact ⟨rfl, rfl, s, rfl⟩
  | succ k ih =>
      cases s with
      | nil => simp [takeDigits] at h
      | cons c cs =>
          by_cases hc : isDig c = true
          · simp only [takeDigits, hc, if_true, Option.map_eq_some'] at h
            obtain ⟨r0, h0, hr⟩ := h
            obtain ⟨hl, hd, v, hv⟩ := ih cs r0 h0
            subst hr
            refine ⟨by simp [hl], ?_, v, by simp [hv]⟩
            simp [allDig] at hd ⊢
            exact ⟨hc, hd⟩
          · simp [takeDigits, hc] at h

theorem searchKDigits_append_nondigit (k : Nat) (xs ys : List Char) (c : Char)
    (h : isDig c = false) :
    searchKDigits k (xs ++ c :: ys) =
      match searchKDigits k xs with
      | some r => some r
      | none => searchKDigits k ys := by
  induction xs with
  | nil =>
      have ht : takeDigits k (c :: ys) = takeDigits k [] :=
        takeDigits_append_nondigit k [] ys c h
      cases k with
      | zero => simp [searchKDigits, takeDigits] at ht ⊢
      | succ k =>
          simp only [takeDigits] at ht
          simp [searchKDigits, ht, takeDigits]
  | cons a as ih =>
      have ht : takeDigits k (a :: (as ++ c :: ys)) = takeDigits k (a :: as) := by
        have h0 := takeDigits_append_nondigit k (a :: as) ys c h
        simpa using h0
      simp only [List.cons_append, searchKDigits, List.append_eq]
      rw [ht]
      cases h2 : takeDigits k (a :: as) with
      | some r => simp
      | none => simp [ih]

theorem searchKDigits_some (k : Nat) (s r : List Char) (h : searchKDigits k s = some r) :
    r.length = k ∧ allDig r = true ∧ ∃ u v, s = u ++ r ++ v := by
  induction s with
  | nil =>
      obtain ⟨hl, hd, v, hv⟩ := takeDigits_some k [] r h
      exact ⟨hl, hd, [], v, by simpa using hv⟩
  | cons a as ih =>
      rw [searchKDigits] at h
      cases ht : takeDigits k (a :: as) with
      | some r0 =>
          rw [ht] at h
          simp only [Option.some.injEq] at h
          subst h
          obtain ⟨hl, hd, v, hv⟩ := takeDigits_some _ _ _ ht
          exact ⟨hl, hd, [], v, by simpa using hv⟩
      | none =>
          rw [ht] at h
          obtain ⟨hl, hd, u, v, hv⟩ := ih h
          exact ⟨hl, hd, a :: u, v, by simp [hv]⟩

theorem searchKDigits_run (k : Nat) (u t v : List Char)
    (hl : t.length = k) (hd : allDig t = true) :
    searchKDigits k (u ++ t ++ v) ≠ none := by
  induction u with
  | nil =>
      cases t with
      | nil =>
          subst hl
          cases v with
          | nil => simp [searchKDigits, takeDigits]
          | cons b bs => simp [searchKDigits, takeDigits]
      | cons a as =>
          have hp := takeDigits_prefix (a :: as) v hd
          rw [hl, List.cons_append] at hp
          simp [searchKDigits, hp]
  | cons b bs ih =>
      rw [List.cons_append, List.cons_append, searchKDigits]
      cases ht : takeDigits k (b :: (bs ++ t ++ v)) with
      | some r => simp
      | none => simpa using ih

theorem no_run_of_search_none (k : Nat) (s : List Char)
    (h : searchKDigits k s = none) :
    ∀ u t v, s = u ++ t ++ v → t.length = k → allDig t = true → False := by
  intro u t v he hl hd
  exact searchKDigits_run k u t v hl hd (he ▸ h)

theorem stmRev_some (l r : List Char) (h : stmRev l = some r) :
    r.length = 4 ∧ allDig r = true ∧
      ∃ w, l = 'm' :: 't' :: 's' :: '.' :: r.reverse ++ w := by
  rcases l with _ | ⟨r1, _ | ⟨r2, _ | ⟨r3, _ | ⟨r4, _ | ⟨a, _ | ⟨b, _ | ⟨c, _ | ⟨d, rest⟩⟩⟩⟩⟩⟩⟩⟩ <;>
    (try (refine absurd h ?_; simp [stmRev]; done))
  simp only [stmRev] at h
  split at h
  · rename_i hp
    obtain ⟨h1, h2, h3, h4, ha, hb, hc, hd⟩ := hp
    simp only [Option.some.injEq] at h
    subst h h1 h2 h3 h4
    refine ⟨rfl, by simp [allDig, ha, hb, hc, hd], rest, by simp⟩
  · exact absurd h (by simp)

theorem stripDollarNl_suffix (f : List Char) : ∃ w, f = stripDollarNl f ++ w := by
  unfold stripDollarNl
  cases hl : f.getLast? with
  | none => exact ⟨[], by simp⟩
  | some c =>
      by_cases hc : c = '\n'
      · subst hc
        simp only [if_pos rfl]
        have hne : f ≠ [] := by
          intro h0
          rw [h0] at hl
          simp at hl
        refine ⟨['\n'], ?_⟩
        have hg := List.getLast?_eq_getLast f hne
        rw [hl] at hg
        have hg2 : f.getLast hne = '\n' := by
          simp only [Option.some.injEq] at hg
          exact hg.symm
        have hd := List.dropLast_append_getLast hne
        rw [hg2] at hd
        exact hd.symm
      · simp only [if_neg hc]
        exact ⟨[], by simp⟩

theorem searchCafeStm_some (f r : List Char) (h : searchCafeStm f = some r) :
    r.length = 4 ∧ allDig r = true ∧ ∃ u v, f = u ++ r ++ v := by
  obtain ⟨hl, hd, w, hw⟩ := stmRev_some _ r h
  obtain ⟨w2, hw2⟩ := stripDollarNl_suffix f
  refine ⟨hl, hd, w.reverse, ['.', 's', 't', 'm'] ++ w2, ?_⟩
  have hs : stripDollarNl f = w.reverse ++ r ++ ['.', 's', 't', 'm'] := by
    have := congrArg List.reverse hw
    simp at this
    rw [this]
    simp
  rw [hw2, hs]
  simp

theorem pySplit_ne_nil (sep : Char) (l : List Char) : pySplit sep l ≠ [] := by
  induction l with
  | nil => simp [pySplit]
  | cons c cs ih =>
      cases h : pySplit sep cs with
      | nil => exact absurd h ih
      | cons hh tt => by_cases hc : c = sep <;> simp [pySplit, h, hc]

theorem pySplit_head_prefix (sep : Char) (l : List Char) :
    ∃ v, l = (pySplit sep l).headD [] ++ v := by
  induction l with
  | nil => exact ⟨[], rfl⟩
  | cons c cs ih =>
      obtain ⟨v, hv⟩ := ih
      cases h : pySplit sep cs with
      | nil => exact absurd h (pySplit_ne_nil sep cs)
      | cons hh tt =>
          by_cases hc : c = sep
          · exact ⟨c :: cs, by simp [pySplit, h, hc]⟩
          · refine ⟨v, ?_⟩
            rw [h] at hv
            simp only [List.headD_cons] at hv
            have e : (pySplit sep (c :: cs)).headD [] = c :: hh := by
              simp [pySplit, h, hc]
            rw [e, List.cons_append, ← hv]

theorem pySplit_mem_infix (sep : Char) (l x : List Char) (hx : x ∈ pySplit sep l) :
    ∃ u v, l = u ++ x ++ v := by
  induction l with
  | nil =>
      simp [pySplit] at hx
      subst hx
      exact ⟨[], [], rfl⟩
  | cons c cs ih =>
      cases h : pySplit sep cs with
      | nil => exact absurd h (pySplit_ne_nil sep cs)
      | cons hh tt =>
          by_cases hc : c = sep
          · have e : pySplit sep (c :: cs) = [] :: hh :: tt := by
              simp [pySplit, h, hc]
            rw [e] at hx
            rcases List.mem_cons.mp hx with h1 | h2
            · subst h1
              exact ⟨[], c :: cs, rfl⟩
            · obtain ⟨u, v, huv⟩ := ih (by rw [h]; exact h2)
              exact ⟨c :: u, v, by simp [huv]⟩
          · have e : pySplit sep (c :: cs) = (c :: hh) :: tt := by
              simp [pySplit, h, hc]
            rw [e] at hx
            rcases List.mem_cons.mp hx with h1 | h2
            · subst h1
              obtain ⟨v, hv⟩ := pySplit_head_prefix sep (c :: cs)
              rw [e] at hv
              simp only [List.headD_cons] at hv
              exact ⟨[], v, by simpa using hv⟩
            · obtain ⟨u, v, huv⟩ := ih (by rw [h]; exact List.mem_cons_of_mem _ h2)
              exact ⟨c :: u, v, by simp [huv]⟩

theorem getD_mem_of_lt (l : List (List Char)) (n : Nat) (d : List Char)
    (h : n < l.length) : l.getD n d ∈ l := by
  induction l generalizing n with
  | nil => simp at h
  | cons a as ih =>
      cases n with
      | zero => simp [List.getD]
      | succ n =>
          have hlt : n < as.length := by simpa using h
          have := ih n hlt
          simp only [List.getD] at this ⊢
          simpa using List.mem_cons_of_mem a this

theorem eq_dropLast_append_of_getLast (l : List Char) (c : Char)
    (h : l.getLast? = some c) : l = l.dropLast ++ [c] := by
  have hne : l ≠ [] := by
    intro h0
    rw [h0] at h
    simp at h
  have hg := List.getLast?_eq_getLast l hne
  rw [h] at hg
  have hg2 : l.getLast hne = c := by
    simp only [Option.some.injEq] at hg
    exact hg.symm
  have hd := List.dropLast_append_getLast hne
  rw [hg2] at hd
  exact hd.symm

theorem search_none_of_no_run (k : Nat) (s : List Char)
    (h : ∀ u t v, s = u ++ t ++ v → t.length = k → allDig t = true → False) :
    searchKDigits k s = none := by
  cases hq : searchKDigits k s with
  | none => rfl
  | some r =>
      obtain ⟨hl, hda, u, v, huv⟩ := searchKDigits_some k s r hq
      exact (h u r v huv hl hda).elim

theorem fallback_cand_infix (f : List Char)
    (h : 2 < (pySplit '-' ((pySplit '_' f).headD [])).length) :
    ∃ u v, f = u ++ (pySplit '-' ((pySplit '_' f).headD [])).getD 2 [] ++ v := by
  obtain ⟨v1, hv1⟩ := pySplit_head_prefix '_' f
  have hmem : (pySplit '-' ((pySplit '_' f).headD [])).getD 2 [] ∈
      pySplit '-' ((pySplit '_' f).headD []) := getD_mem_of_lt _ 2 [] (by omega)
  obtain ⟨u2, v2, h2⟩ := pySplit_mem_infix '-' ((pySplit '_' f).headD []) _ hmem
  refine ⟨u2, v2 ++ v1, ?_⟩
  conv_lhs => rw [hv1, h2]
  simp

theorem pyFullMatch_run (f cand : List Char)
    (hinf : ∃ u v, f = u ++ cand ++ v)
    (hv : pyFullMatchDigits8 cand = true) :
    ∃ u t v, f = u ++ t ++ v ∧ t.length = 8 ∧ allDig t = true := by
  obtain ⟨u, v, huv⟩ := hinf
  rw [pyFullMatchDigits8, Bool.or_eq_true, Bool.and_eq_true, Bool.and_eq_true,
    Bool.and_eq_true] at hv
  rcases hv with ⟨h1, h2⟩ | ⟨⟨h1, h2⟩, h3⟩
  · exact ⟨u, cand, v, huv, of_decide_eq_true h1, h2⟩
  · have hlast : cand.getLast? = some '\n' := of_decide_eq_true h3
    have hcand := eq_dropLast_append_of_getLast cand '\n' hlast
    refine ⟨u, cand.dropLast, '\n' :: v, ?_, ?_, h2⟩
    · rw [huv, hcand]
      simp
    · have h9 : cand.length = 9 := of_decide_eq_true h1
      rw [List.length_dropLast, h9]

theorem dateSearch_cases (f d0 : List Char) (h : dateSearch f = some d0) :
    searchKDigits 8 f = some d0 ∨
      (searchKDigits 8 f = none ∧
        2 < (pySplit '-' ((pySplit '_' f).headD [])).length ∧
        d0 = (pySplit '-' ((pySplit '_' f).headD [])).getD 2 []) := by
  unfold dateSearch at h
  cases h8 : searchKDigits 8 f with
  | some d1 =>
      rw [h8] at h
      simp only [Option.some.injEq] at h
      subst h
      exact Or.inl rfl
  | none =>
      rw [h8] at h
      rw [if_pos (List.length_pos.mpr (pySplit_ne_nil '_' f))] at h
      by_cases hdp : 2 < (pySplit '-' ((pySplit '_' f).headD [])).length
      · rw [if_pos hdp] at h
        simp only [Option.some.injEq] at h
        exact Or.inr ⟨rfl, hdp, h.symm⟩
      · rw [if_neg hdp] at h
        exact absurd h (by simp)

/-- Claim C8: classification of the concrete filename
"store-20241102_5512.stm" succeeds and returns cafe_id "5512" and
date "20241102". -/
theorem c8_classify_concrete :
    extract_cafe_id_and_date ("store-20241102_5512.stm").data =
      some (("5512").data, ("20241102").data) := by decide

/-- Claim C2 counterexample: "a-20241102_5512.txt" has the claimed
shape (prefix "a", 8-digit segment "20241102", empty middle, 4-digit
segment "5512", extension "txt"), yet classification returns
cafe_id "2024", not the embedded 4-digit segment "5512". -/
theorem c2_counterexample :
    ("a-20241102_5512.txt").data =
        ("a").data ++ '-' :: (("20241102").data ++ '_' ::
          (("").data ++ (("5512").data ++ '.' :: ("txt").data))) ∧
      ("20241102").data.length = 8 ∧ allDig (("20241102").data) = true ∧
      ("5512").data.length = 4 ∧ allDig (("5512").data) = true ∧
      extract_cafe_id_and_date ("a-20241102_5512.txt").data ≠
        some (("5512").data, ("20241102").data) := by decide

/-- Claim C2 (amended): for every filename of the shape
prefix ++ "-" ++ <8 digits> ++ "_" ++ middle ++ <4 digits> ++ ".stm",
where the prefix contains no run of 8 consecutive digits,
classification succeeds and returns exactly the embedded 4-digit
substring as the cafe_id and the embedded 8-digit substring as the
date.  (The original claim, over arbitrary extensions and prefixes,
is refuted by `c2_counterexample`.) -/
theorem c2_classify_shape (p d m c : List Char)
    (hd8 : d.length = 8) (hdd : allDig d = true)
    (hc4 : c.length = 4) (hcd : allDig c = true)
    (hp : ∀ u t v, p = u ++ t ++ v → t.length = 8 → allDig t = true → False) :
    extract_cafe_id_and_date
        (p ++ '-' :: (d ++ '_' :: (m ++ (c ++ '.' :: ['s', 't', 'm'])))) =
      some (c, d) := by
  obtain ⟨c1, c2, c3, c4, rfl⟩ : ∃ c1 c2 c3 c4, c = [c1, c2, c3, c4] := by
    rcases c with _ | ⟨c1, _ | ⟨c2, _ | ⟨c3, _ | ⟨c4, _ | ⟨c5, t⟩⟩⟩⟩⟩ <;> simp at hc4
    exact ⟨c1, c2, c3, c4, rfl⟩
  simp only [allDig, List.all_cons, List.all_nil, Bool.and_eq_true, Bool.and_true] at hcd
  obtain ⟨hdc1, hdc2, hdc3, hdc4⟩ := hcd
  have hrev : (p ++ '-' :: (d ++ '_' :: (m ++ ([c1, c2, c3, c4] ++ '.' :: ['s', 't', 'm'])))).reverse =
      'm' :: 't' :: 's' :: '.' :: c4 :: c3 :: c2 :: c1 ::
        (m.reverse ++ '_' :: (d.reverse ++ '-' :: p.reverse)) := by
    simp
  have hlast : (p ++ '-' :: (d ++ '_' :: (m ++ ([c1, c2, c3, c4] ++ '.' :: ['s', 't', 'm'])))).getLast? =
      some 'm' := by
    rw [← List.head?_reverse, hrev]
    rfl
  have hstrip : stripDollarNl (p ++ '-' :: (d ++ '_' :: (m ++ ([c1, c2, c3, c4] ++ '.' :: ['s', 't', 'm'])))) =
      p ++ '-' :: (d ++ '_' :: (m ++ ([c1, c2, c3, c4] ++ '.' :: ['s', 't', 'm']))) := by
    unfold stripDollarNl
    rw [hlast]
    simp
  have hcafe : cafeSearch (p ++ '-' :: (d ++ '_' :: (m ++ ([c1, c2, c3, c4] ++ '.' :: ['s', 't', 'm'])))) =
      some [c1, c2, c3, c4] := by
    unfold cafeSearch searchCafeStm
    rw [hstrip, hrev]
    simp [stmRev, hdc1, hdc2, hdc3, hdc4]
  have hsp : searchKDigits 8 p = none := search_none_of_no_run 8 p hp
  have hsd : searchKDigits 8 (d ++ '_' :: (m ++ ([c1, c2, c3, c4] ++ '.' :: ['s', 't', 'm']))) =
      some d := by
    cases hdl : d with
    | nil => rw [hdl] at hd8; simp at hd8
    | cons d1 dt =>
        rw [← hdl]
        have htake : takeDigits 8 (d ++ '_' :: (m ++ ([c1, c2, c3, c4] ++ '.' :: ['s', 't', 'm']))) =
            some d := by
          rw [takeDigits_append_nondigit 8 d _ '_' (by decide)]
          have := takeDigits_prefix d [] hdd
          rw [hd8] at this
          simpa using this
        rw [hdl] at htake ⊢
        rw [List.cons_append, searchKDigits]
        rw [← List.cons_append, htake]
  have hs8 : searchKDigits 8 (p ++ '-' :: (d ++ '_' :: (m ++ ([c1, c2, c3, c4] ++ '.' :: ['s', 't', 'm'])))) =
      some d := by
    rw [searchKDigits_append_nondigit 8 p _ '-' (by decide), hsp, hsd]
  have hds : dateSearch (p ++ '-' :: (d ++ '_' :: (m ++ ([c1, c2, c3, c4] ++ '.' :: ['s', 't', 'm'])))) =
      some d := by
    unfold dateSearch
    rw [hs8]
  unfold extract_cafe_id_and_date
  rw [hcafe, hds]
  have hv : pyFullMatchDigits8 d = true := by
    rw [pyFullMatchDigits8, Bool.or_eq_true, Bool.and_eq_true]
    exact Or.inl ⟨decide_eq_true hd8, hdd⟩
  simp [hv]

/-- Witness for `c2_classify_shape` at a concrete shape. -/
theorem c2_classify_shape_witness :
    extract_cafe_id_and_date
        (("x").data ++ '-' :: (("20240101").data ++ '_' ::
          (("y").data ++ (("7777").data ++ '.' :: ['s', 't', 'm'])))) =
      some (("7777").data, ("20240101").data) :=
  c2_classify_shape ("x").data ("20240101").data ("y").data ("7777").data
    (by decide) (by decide) (by decide) (by decide)
    (no_run_of_search_none 8 ("x").data (by decide))

/-- Claim C7: for every filename containing no 4-digit substring,
classification fails deterministically with the no-cafe-id failure
(returns none). -/
theorem c7_no_cafe_id (f : List Char)
    (h4 : ∀ u t v, f = u ++ t ++ v → t.length = 4 → allDig t = true → False) :
    extract_cafe_id_and_date f = none := by
  have hstm : searchCafeStm f = none := by
    cases hs : searchCafeStm f with
    | none => rfl
    | some r =>
        obtain ⟨hl, hda, u, v, huv⟩ := searchCafeStm_some f r hs
        exact (h4 u r v huv hl hda).elim
  have hk : searchKDigits 4 f = none := search_none_of_no_run 4 f h4
  unfold extract_cafe_id_and_date cafeSearch
  rw [hstm, hk]

/-- Witness for `c7_no_cafe_id` at a concrete filename without digits. -/
theorem c7_no_cafe_id_witness :
    extract_cafe_id_and_date ("receipt.stm").data = none :=
  c7_no_cafe_id ("receipt.stm").data
    (no_run_of_search_none 4 ("receipt.stm").data (by decide))

/-- Claim C4: for every filename, if classification succeeds with a
(cafe_id, date) pair, then the cafe_id is a string of exactly four
digits and the date a string of exactly eight digits. -/
theorem c4_classify_invariant (f cid d : List Char)
    (h : extract_cafe_id_and_date f = some (cid, d)) :
    cid.length = 4 ∧ allDig cid = true ∧ d.length = 8 ∧ allDig d = true := by
  unfold extract_cafe_id_and_date at h
  cases hcafe : cafeSearch f with
  | none =>
      rw [hcafe] at h
      exact absurd h (by simp)
  | some cid0 =>
      rw [hcafe] at h
      cases hds : dateSearch f with
      | none =>
          rw [hds] at h
          exact absurd h (by simp)
      | some d0 =>
          rw [hds] at h
          simp only [] at h
          by_cases hv : pyFullMatchDigits8 d0 = true
          · rw [if_pos hv] at h
            simp only [Option.some.injEq, Prod.mk.injEq] at h
            obtain ⟨hcid0, hd0⟩ := h
            rw [← hcid0, ← hd0]
            have hcid : cid0.length = 4 ∧ allDig cid0 = true := by
              unfold cafeSearch at hcafe
              cases hs : searchCafeStm f with
              | some r =>
                  rw [hs] at hcafe
                  simp only [Option.some.injEq] at hcafe
                  rw [← hcafe]
                  obtain ⟨hl, hda, _⟩ := searchCafeStm_some f r hs
                  exact ⟨hl, hda⟩
              | none =>
                  rw [hs] at hcafe
                  obtain ⟨hl, hda, _, _, _⟩ := searchKDigits_some 4 f cid0 hcafe
                  exact ⟨hl, hda⟩
            rcases dateSearch_cases f d0 hds with h8 | ⟨h8none, hdp, hcand⟩
            · obtain ⟨hl, hda, _, _, _⟩ := searchKDigits_some 8 f d0 h8
              exact ⟨hcid.1, hcid.2, hl, hda⟩
            · have hinf : ∃ u v, f = u ++ d0 ++ v := by
                rw [hcand]
                exact fallback_cand_infix f hdp
              obtain ⟨u, t, v, huv, hl, hda⟩ := pyFullMatch_run f d0 hinf hv
              exact absurd (huv ▸ h8none) (searchKDigits_run 8 u t v hl hda)
          · rw [if_neg hv] at h
            exact absurd h (by simp)

/-- Witness for `c4_classify_invariant` at a concrete classification. -/
theorem c4_classify_invariant_witness :
    ("5512").data.length = 4 ∧ allDig (("5512").data) = true ∧
      ("20241102").data.length = 8 ∧ allDig (("20241102").data) = true :=
  c4_classify_invariant ("store-20241102_5512.stm").data
    ("5512").data ("20241102").data (by decide)

/-- Claim C9: for every filename containing no 8-digit substring, the
date is determined by the structural fallback — the filename is split
on '_', its first segment split on '-', and only with more than 2
parts is the part at index 2 the date candidate; classification then
succeeds for the date only if that candidate is exactly 8 digits, and
fails otherwise. -/
theorem c9_structural_fallback (f : List Char)
    (h8 : ∀ u t v, f = u ++ t ++ v → t.length = 8 → allDig t = true → False) :
    extract_cafe_id_and_date f =
      match cafeSearch f with
      | none => none
      | some cid =>
          if 2 < (pySplit '-' ((pySplit '_' f).headD [])).length then
            if ((pySplit '-' ((pySplit '_' f).headD [])).getD 2 []).length = 8 ∧
                allDig ((pySplit '-' ((pySplit '_' f).headD [])).getD 2 []) = true then
              some (cid, (pySplit '-' ((pySplit '_' f).headD [])).getD 2 [])
            else none
          else none := by
  have hs8 : searchKDigits 8 f = none := search_none_of_no_run 8 f h8
  have hds : dateSearch f =
      (if 2 < (pySplit '-' ((pySplit '_' f).headD [])).length then
        some ((pySplit '-' ((pySplit '_' f).headD [])).getD 2 [])
      else none) := by
    unfold dateSearch
    rw [hs8, if_pos (List.length_pos.mpr (pySplit_ne_nil '_' f))]
  cases hcafe : cafeSearch f with
  | none =>
      unfold extract_cafe_id_and_date
      rw [hcafe]
  | some cid =>
      by_cases hdp : 2 < (pySplit '-' ((pySplit '_' f).headD [])).length
      · have hds2 : dateSearch f = some ((pySplit '-' ((pySplit '_' f).headD [])).getD 2 []) := by
          rw [hds, if_pos hdp]
        have hinf := fallback_cand_infix f hdp
        have hpv : pyFullMatchDigits8 ((pySplit '-' ((pySplit '_' f).headD [])).getD 2 []) = false := by
          cases hb : pyFullMatchDigits8 ((pySplit '-' ((pySplit '_' f).headD [])).getD 2 []) with
          | false => rfl
          | true =>
              obtain ⟨u, t, v, huv, hl, hda⟩ := pyFullMatch_run f _ hinf hb
              exact (h8 u t v huv hl hda).elim
        have hstrict : ¬(((pySplit '-' ((pySplit '_' f).headD [])).getD 2 []).length = 8 ∧
            allDig ((pySplit '-' ((pySplit '_' f).headD [])).getD 2 []) = true) := by
          rintro ⟨hl, hda⟩
          obtain ⟨u, v, huv⟩ := hinf
          exact h8 u _ v huv hl hda
        unfold extract_cafe_id_and_date
        rw [hcafe, hds2]
        simp only []
        rw [if_pos hdp, if_neg hstrict, hpv]
        simp
      · have hds2 : dateSearch f = none := by
          rw [hds, if_neg hdp]
        unfold extract_cafe_id_and_date
        rw [hcafe, hds2]
        simp only []
        rw [if_neg hdp]

/-- Witness for `c9_structural_fallback` at a concrete filename with no
8-digit run whose fallback candidate is not 8 digits. -/
theorem c9_structural_fallback_witness :
    extract_cafe_id_and_date ("a-b-1234.stm").data =
      match cafeSearch ("a-b-1234.stm").data with
      | none => none
      | some cid =>
          if 2 < (pySplit '-' ((pySplit '_' ("a-b-1234.stm").data).headD [])).length then
            if ((pySplit '-' ((pySplit '_' ("a-b-1234.stm").data).headD [])).getD 2 []).length = 8 ∧
                allDig ((pySplit '-' ((pySplit '_' ("a-b-1234.stm").data).headD [])).getD 2 []) = true then
              some (cid, (pySplit '-' ((pySplit '_' ("a-b-1234.stm").data).headD [])).getD 2 [])
            else none
          else none :=
  c9_structural_fallback ("a-b-1234.stm").data
    (no_run_of_search_none 8 ("a-b-1234.stm").data (by decide))

/-- Claim C1 counterexample: on the synthetic receipt body the parsed
line item description is "1 - Coffee" — the item regex group
`(\d+\s*-\s*.+?)` keeps the quantity prefix — so the item list is not
the claimed one with description "Coffee". -/
theorem c1_counterexample :
    (parse_stm_content c1Body).items ≠
      [(("Coffee").data, ("2.50").data, ("9%").data)] := by decide

/-- Claim C1 (amended): on the synthetic receipt body the extractor
returns order_no "12345", time "14:32:10", total_amount "2.50", and
exactly one line item with description "1 - Coffee", price "2.50",
vat "9%"; emitting that record writes exactly one row
(cafe_id, date, "14:32:10", "12345", "1 - Coffee", "2.50", "9%",
"2.50") with the cafe_id and date supplied by the caller.  (The
original claim's item description "Coffee" is refuted by
`c1_counterexample`.) -/
theorem c1_round_trip (cafe_id date : List Char) :
    parse_stm_content c1Body =
      { order_no := some ("12345").data
        time := some ("14:32:10").data
        total_amount := some ("2.50").data
        items := [(("1 - Coffee").data, ("2.50").data, ("9%").data)] } ∧
    write_csv_row cafe_id date (parse_stm_content c1Body) =
      ([[cafe_id, date, ("14:32:10").data, ("12345").data, ("1 - Coffee").data,
          ("2.50").data, ("9%").data, ("2.50").data]], 1) := by
  have h : parse_stm_content c1Body =
      { order_no := some ("12345").data
        time := some ("14:32:10").data
        total_amount := some ("2.50").data
        items := [(("1 - Coffee").data, ("2.50").data, ("9%").data)] } := by decide
  refine ⟨h, ?_⟩
  rw [h]
  rfl

/-- Claim C3: extraction is total — for every input string, including
the empty string and arbitrary malformed text, parse_stm_content
returns a record, with absent fields represented as none and an empty
item sequence rather than a failure. -/
theorem c3_parse_total (content : List Char) :
    ∃ r : StmRecord, parse_stm_content content = r ∧
      (searchOrderNo content = none → r.order_no = none) ∧
      (searchTime content = none → r.time = none) ∧
      (searchTotal content = none → r.total_amount = none) ∧
      (find_items content = [] → r.items = []) ∧
      (content = [] →
        r = { order_no := none, time := none, total_amount := none, items := [] }) := by
  refine ⟨parse_stm_content content, rfl, ?_, ?_, ?_, ?_, ?_⟩
  · intro h
    simp [parse_stm_content, h]
  · intro h
    simp [parse_stm_content, h]
  · intro h
    simp [parse_stm_content, h]
  · intro h
    simp [parse_stm_content, h]
  · intro h
    subst h
    decide

/-- Witness for `c3_parse_total` at the empty input. -/
theorem c3_parse_total_witness :
    parse_stm_content [] =
      { order_no := none, time := none, total_amount := none, items := [] } := by
  obtain ⟨r, h1, _, _, _, _, h6⟩ := c3_parse_total []
  exact h1.trans (h6 rfl)

theorem write_rows_spec (cafe_id date : List Char)
    (time order_no total : Option (List Char))
    (items : List (List Char × List Char × List Char)) :
    write_rows cafe_id date time order_no total items =
      (items.map (fun it =>
        [cafe_id, date, pyOr time, pyOr order_no,
          pyStrip it.1, pyStrip it.2.1, pyStrip it.2.2, pyOr total]),
       items.length) := by
  induction items with
  | nil => rfl
  | cons it rest ih => simp [write_rows, ih]

/-- Claim C6: for every record and caller-supplied cafe_id and date,
write_csv_row writes exactly one row per line item, substituting the
empty string for each missing optional field (time, order_no,
total_amount) in every row, and returns the count of line-item rows
written, which is 0 when the item sequence is empty. -/
theorem c6_write_csv_row (cafe_id date : List Char) (r : StmRecord) :
    (write_csv_row cafe_id date r).1.length = r.items.length ∧
      (write_csv_row cafe_id date r).2 = r.items.length ∧
      (write_csv_row cafe_id date r).1 =
        r.items.map (fun it =>
          [cafe_id, date, pyOr r.time, pyOr r.order_no,
            pyStrip it.1, pyStrip it.2.1, pyStrip it.2.2, pyOr r.total_amount]) ∧
      pyOr none = [] ∧
      write_csv_row cafe_id date
          { order_no := r.order_no, time := r.time,
            total_amount := r.total_amount, items := [] } = ([], 0) := by
  unfold write_csv_row
  rw [write_rows_spec, write_rows_spec]
  simp [pyOr]

/-- Claim C5: the 8-column header row is written exactly once per
table: it is written only when the target table is zero-length, so
emitting twice in sequence into the same initially-empty table writes
the header on the first emission only, the second being guarded by the
zero-length check, and the header stays the single first row. -/
theorem c5_header_once (ca1 da1 : List Char) (r1 : StmRecord)
    (ca2 da2 : List Char) (r2 : StmRecord) :
    (process_stm_table [] ca1 da1 r1).2.1 = true ∧
      (process_stm_table (process_stm_table [] ca1 da1 r1).1 ca2 da2 r2).2.1 = false ∧
      (process_stm_table (process_stm_table [] ca1 da1 r1).1 ca2 da2 r2).1.head? =
        some CSV_HEADERS := by
  have h1 : (process_stm_table [] ca1 da1 r1).1 =
      CSV_HEADERS :: (write_csv_row ca1 da1 r1).1 := by
    simp [process_stm_table]
  refine ⟨by simp [process_stm_table], ?_, ?_⟩
  · rw [h1]
    simp [process_stm_table]
  · rw [h1]
    simp [process_stm_table]

/-- Claim C10: for every path that does not exist, cleanup reports
success and performs no deletions; for every existing path that is not
a directory, it reports failure without deleting anything. -/
theorem c10_cleanup_guards (fs : List FSEntry) (p : List (List Char)) :
    (pathExists fs p = false → cleanup_temp_directory fs p = (fs, true)) ∧
      (pathExists fs p = true → isDirAt fs p = false →
        cleanup_temp_directory fs p = (fs, false)) := by
  constructor
  · intro h
    unfold cleanup_temp_directory
    rw [if_pos h]
  · intro h1 h2
    unfold cleanup_temp_directory
    rw [if_neg (by simp [h1]), if_pos h2]

/-- Witness for `c10_cleanup_guards` on concrete filesystem states. -/
theorem c10_cleanup_guards_witness :
    cleanup_temp_directory [] [("tmp").data] = ([], true) ∧
      cleanup_temp_directory [{ path := [("tmp").data], kind := FKind.file }] [("tmp").data] =
        ([{ path := [("tmp").data], kind := FKind.file }], false) :=
  ⟨(c10_cleanup_guards [] [("tmp").data]).1 (by decide),
   (c10_cleanup_guards [{ path := [("tmp").data], kind := FKind.file }] [("tmp").data]).2
     (by decide) (by decide)⟩
